import Mathlib

/-!
Shallow embedding of the session-window aggregation engine of the
claude-usage-monitor VS Code extension (files `src/sessionCalculator.ts`,
`src/sessionParser.ts` a.k.a. the last segment of `sessionPopover.ts`,
types from `types.ts`), together with theorems settling the frozen claims.

Modelling conventions:
* Timestamps are integers (milliseconds since the epoch), the value of
  `new Date(msg.timestamp).getTime()` in the source.
* The source reads the ambient clock (`const now = new Date()`) and derives
  the local-midnight cutoff via `startOfToday.setHours(0,0,0,0)`.  Both are
  ambient-environment values, so they are passed as explicit parameters
  `now` and `startOfToday` to the embedded facade, as the spec itself
  prescribes ("treat `now` as an explicit parameter").
* JavaScript numbers used for division (burn rate, time-to-limit) are
  embedded as rationals `ℚ`; token counts are `Nat`, times are `Int`.
* Fallible results (`null` / `undefined`) are embedded as `Option`.
-/

/-! ### Structural lemmas about `groupAux` / `groupIntoFiveHourSets` -/

/-! ### Lemmas about the JS-`Map` deduplication -/

/-- `MessageUsage` from `types.ts`: the two cache counts are optional
(`cache_creation_input_tokens?`, `cache_read_input_tokens?`). -/
structure MessageUsage where
  input_tokens : Nat
  cache_creation_input_tokens : Option Nat
  cache_read_input_tokens : Option Nat
  output_tokens : Nat
deriving DecidableEq, Repr

/-- `ClaudeMessage` from `types.ts`; `timestamp` is the epoch-millisecond
value of the ISO string, `role` is kept as a plain string. -/
structure ClaudeMessage where
  id : String
  timestamp : Int
  role : String
  usage : Option MessageUsage
deriving DecidableEq, Repr

/-- `SESSION_DURATION_MS = 5 * 60 * 60 * 1000` from `sessionCalculator.ts`. -/
def SESSION_DURATION_MS : Int := 5 * 60 * 60 * 1000

/-- `BURN_RATE_WINDOW_MS = 10 * 60 * 1000` from `sessionCalculator.ts`. -/
def BURN_RATE_WINDOW_MS : Int := 10 * 60 * 1000

/-- `calculateTokensFromUsage` from `sessionParser.ts` (lines 436–438):
`usage.input_tokens + (usage.cache_creation_input_tokens || 0) +
 (usage.cache_read_input_tokens || 0) + (usage.output_tokens || 0)`.
Missing optional counts default to 0 (`|| 0`); `output_tokens` is a
required `Nat`, for which `|| 0` is the identity. -/
def calculateTokensFromUsage (usage : MessageUsage) : Nat :=
  usage.input_tokens + usage.cache_creation_input_tokens.getD 0 +
    usage.cache_read_input_tokens.getD 0 + usage.output_tokens

/-- One step of building the JavaScript `Map` in
`new Map(messages.map(m => [m.id, m]))` (`sessionCalculator.ts` lines
21–23): setting a key that is already present updates its value in place
(keeping first-insertion order), otherwise the pair is appended. -/
def mapInsert (entries : List (String × ClaudeMessage)) (key : String)
    (message : ClaudeMessage) : List (String × ClaudeMessage) :=
  if entries.any (fun e => e.1 = key) then
    entries.map (fun e => if e.1 = key then (key, message) else e)
  else
    entries ++ [(key, message)]

/-- The deduplication step of `calculateSessionMetrics` (lines 21–23):
`Array.from(new Map(messages.map(m => [m.id, m])).values())`.
The JS `Map` keeps keys in first-insertion order with last-set-wins
values; `.values()` lists the values in that key order. -/
def dedupe (messages : List ClaudeMessage) : List ClaudeMessage :=
  (messages.foldl (fun entries msg => mapInsert entries msg.id msg) []).map (·.2)

/-- The sort step of `calculateSessionMetrics` (lines 28–30):
`[...].sort((a, b) => ta - tb)`, a stable ascending sort by timestamp
(JS `Array.prototype.sort` is stable). -/
def sortByTimestamp (messages : List ClaudeMessage) : List ClaudeMessage :=
  messages.mergeSort (fun a b => a.timestamp ≤ b.timestamp)

/-- `SessionSet` from `sessionCalculator.ts` (lines 163–168). -/
structure SessionSet where
  startTime : Int
  endTime : Int
  lastMessageTime : Int
  messages : List ClaudeMessage
deriving DecidableEq, Repr

/-- Opening a new set from a message (`sessionCalculator.ts` lines 183–188
and 196–201): `startTime = msgTime`, `endTime = msgTime + SESSION_DURATION_MS`. -/
def mkSet (message : ClaudeMessage) : SessionSet :=
  { startTime := message.timestamp
    endTime := message.timestamp + SESSION_DURATION_MS
    lastMessageTime := message.timestamp
    messages := [message] }

/-- Folding a message into the current set (`sessionCalculator.ts` lines
190–192): push the message and advance `lastMessageTime`. -/
def extendSet (s : SessionSet) (message : ClaudeMessage) : SessionSet :=
  { s with messages := s.messages ++ [message], lastMessageTime := message.timestamp }

/-- The loop body of `groupIntoFiveHourSets` (lines 178–203), with the
mutable `currentSet` as the recursion parameter: a message with
`msgTime <= currentSet.endTime` extends the current set, otherwise the
current set is emitted and a fresh one is opened at the message. The final
`currentSet` is emitted when the input is exhausted (lines 206–208). -/
def groupAux (currentSet : SessionSet) : List ClaudeMessage → List SessionSet
  | [] => [currentSet]
  | message :: rest =>
    if message.timestamp ≤ currentSet.endTime then
      groupAux (extendSet currentSet message) rest
    else
      currentSet :: groupAux (mkSet message) rest

/-- `groupIntoFiveHourSets` from `sessionCalculator.ts` (lines 170–211):
empty input yields no sets; otherwise the first message opens the first
set and the loop of `groupAux` processes the rest. -/
def groupIntoFiveHourSets : List ClaudeMessage → List SessionSet
  | [] => []
  | message :: rest => groupAux (mkSet message) rest

/-- `calculateBurnRate` from `sessionCalculator.ts` (lines 216–238):
keep messages with timestamp ≥ `now - BURN_RATE_WINDOW_MS`; if none, 0;
otherwise divide their `calculateTokensFromUsage` sum by the minutes
elapsed from the earliest kept message to `now`, or return 0 when that
elapsed time is not positive. -/
def calculateBurnRate (messages : List ClaudeMessage) (now : Int) : ℚ :=
  let windowStart := now - BURN_RATE_WINDOW_MS
  let recentMessages := messages.filter (fun msg => decide (windowStart ≤ msg.timestamp))
  match recentMessages with
  | [] => 0
  | first :: _ =>
    let totalTokens := recentMessages.foldl
      (fun acc msg =>
        match msg.usage with
        | none => acc
        | some u => acc + calculateTokensFromUsage u) 0
    let elapsedMinutes : ℚ := ((now - first.timestamp : Int) : ℚ) / 60000
    if 0 < elapsedMinutes then (totalTokens : ℚ) / elapsedMinutes else 0

/-- `SessionMetrics` from `types.ts`, restricted to the fields the facade
actually returns (lines 141–155 of `sessionCalculator.ts`; the optional
`estimatedTimeToLimit` field is never set there and is omitted). -/
structure SessionMetrics where
  totalTokens : Nat
  inputTokens : Nat
  cacheCreationTokens : Nat
  cacheReadTokens : Nat
  outputTokens : Nat
  messages : Nat
  startTime : Int
  lastMessageTime : Int
  sessionId : String
  sessionEndTime : Int
  timeRemaining : Int
  isActive : Bool
  burnRate : ℚ
deriving DecidableEq, Repr

/-- Accumulator of the token loop of `calculateSessionMetrics`
(lines 85–124): the running sums plus the `seenIds` set used for the
in-loop duplicate check. -/
structure TokenAcc where
  seenIds : List String
  totalTokens : Nat
  inputTokens : Nat
  cacheCreationTokens : Nat
  cacheReadTokens : Nat
  outputTokens : Nat
deriving DecidableEq, Repr

/-- One iteration of the token loop (lines 98–124): messages without
`usage` are ignored; a message whose id was already seen is skipped;
otherwise all five sums are advanced. -/
def tokenStep (acc : TokenAcc) (message : ClaudeMessage) : TokenAcc :=
  match message.usage with
  | none => acc
  | some usage =>
    if message.id ∈ acc.seenIds then acc
    else
      { seenIds := message.id :: acc.seenIds
        totalTokens := acc.totalTokens + calculateTokensFromUsage usage
        inputTokens := acc.inputTokens + usage.input_tokens
        cacheCreationTokens := acc.cacheCreationTokens + usage.cache_creation_input_tokens.getD 0
        cacheReadTokens := acc.cacheReadTokens + usage.cache_read_input_tokens.getD 0
        outputTokens := acc.outputTokens + usage.output_tokens }

/-- `calculateSessionMetrics` from `sessionCalculator.ts` (lines 10–156).
`now` and `startOfToday` stand for the ambient `new Date()` and the
local-midnight value computed from it; everything else transcribes the
source step by step: empty-input guard, dedupe, stable sort, calendar-day
filter, empty guard, 5-hour grouping, empty guard, active-set filter,
last-overlapping-set selection, and the metrics record. -/
def calculateSessionMetrics (messages : List ClaudeMessage) (sessionId : String)
    (now startOfToday : Int) : Option SessionMetrics :=
  if messages.isEmpty then none else
  let uniqueMessages := dedupe messages
  let sortedMessages := sortByTimestamp uniqueMessages
  let todayMessages := sortedMessages.filter (fun msg => decide (startOfToday ≤ msg.timestamp))
  if todayMessages.isEmpty then none else
  let sets := groupIntoFiveHourSets todayMessages
  if sets.isEmpty then none else
  let activeSets := sets.filter (fun s => decide (s.startTime ≤ now ∧ now ≤ s.endTime))
  match activeSets.getLast? with
  | none => none
  | some activeSet =>
    let timeRemaining := max 0 (activeSet.endTime - now)
    let isActive := decide (0 < timeRemaining)
    let acc := activeSet.messages.foldl tokenStep ⟨[], 0, 0, 0, 0, 0⟩
    let burnRate := calculateBurnRate activeSet.messages now
    some
      { totalTokens := acc.totalTokens
        inputTokens := acc.inputTokens
        cacheCreationTokens := acc.cacheCreationTokens
        cacheReadTokens := acc.cacheReadTokens
        outputTokens := acc.outputTokens
        messages := activeSet.messages.length
        startTime := activeSet.startTime
        lastMessageTime := activeSet.lastMessageTime
        sessionId := sessionId
        sessionEndTime := activeSet.endTime
        timeRemaining := timeRemaining
        isActive := isActive
        burnRate := burnRate }

/-- `estimateTimeToLimit` from `sessionCalculator.ts` (lines 243–255):
`undefined` when `burnRate <= 0 || currentTokens >= tokenLimit`, otherwise
`(tokenLimit - currentTokens) / burnRate` minutes in milliseconds. -/
def estimateTimeToLimit (currentTokens tokenLimit burnRate : ℚ) : Option ℚ :=
  if burnRate ≤ 0 ∨ tokenLimit ≤ currentTokens then none
  else
    let remainingTokens := tokenLimit - currentTokens
    let minutesToLimit := remainingTokens / burnRate
    some (minutesToLimit * 60000)

/-- JavaScript `a || b` for a possibly-absent string `a`: both `undefined`
and the empty string are falsy. -/
def jsStringOr (value : Option String) (fallback : String) : String :=
  match value with
  | none => fallback
  | some s => if s = "" then fallback else s

/-- The id-assignment of `parseSessionFile` (`sessionParser.ts` line 408):
`id: msg.id || parsed.uuid || ""`. -/
def assignMessageId (messageId recordUuid : Option String) : String :=
  jsStringOr messageId (jsStringOr recordUuid "")

/-- Bundled window well-formedness used in the grouping induction: the
window is non-empty, starts at its first event's timestamp, and every
member event's timestamp lies in `[startTime, endTime]`. -/
def SetWF (s : SessionSet) : Prop :=
  s.messages ≠ [] ∧
  s.messages.head?.map (fun m => m.timestamp) = some s.startTime ∧
  ∀ m ∈ s.messages, s.startTime ≤ m.timestamp ∧ m.timestamp ≤ s.endTime

/-- Key list of the association list modelling the JS `Map`. -/
def keysOf (entries : List (String × ClaudeMessage)) : List String :=
  entries.map (·.1)

/-- Value stored for `key` in the association list (first entry with that
key, as JS `Map.get`). -/
def lookupVal (key : String) (entries : List (String × ClaudeMessage)) :
    Option ClaudeMessage :=
  (entries.find? (fun e => e.1 = key)).map (·.2)

/-- Building the JS `Map` from an initial entry list by repeated `set`. -/
def buildMap (entries : List (String × ClaudeMessage))
    (messages : List ClaudeMessage) : List (String × ClaudeMessage) :=
  messages.foldl (fun es msg => mapInsert es msg.id msg) entries

/-- Keys added by a sequence of `Map.set` calls given an already-seen key
list: first occurrence of each not-yet-seen key, in input order. -/
def newKeys (seen : List String) : List String → List String
  | [] => []
  | k :: rest => if k ∈ seen then newKeys seen rest else k :: newKeys (k :: seen) rest

/-- First-occurrence order of ids, written directly from the claim's words
("order of the output follows first-occurrence order of each unique id in
the input"), to be compared with what `dedupe` actually produces. -/
def specFirstOccurIds : List String → List String
  | [] => []
  | k :: rest => k :: (specFirstOccurIds rest).filter (fun x => decide (x ≠ k))

/-- The window sequence the facade constructs for a batch: dedupe, stable
sort, calendar-day filter, then 5-hour grouping (steps 1–3 of
`calculateSessionMetrics`). -/
def sessionSetsOf (messages : List ClaudeMessage) (startOfToday : Int) : List SessionSet :=
  groupIntoFiveHourSets
    ((sortByTimestamp (dedupe messages)).filter (fun msg => decide (startOfToday ≤ msg.timestamp)))

/-- Concrete event for the C1 check: input 10, cache-creation 100,
cache-read 1000, output 5, at the epoch. -/
def msgC1 : ClaudeMessage := ⟨"m1", 0, "assistant", some ⟨10, some 100, some 1000, 5⟩⟩

/-- Concrete event for the C4 check: 300 quota-relevant tokens
(input 300, output 0) plus 600 cache-creation tokens, 3 minutes before
the reference instant 10000000. -/
def msgC4 : ClaudeMessage := ⟨"m4", 9820000, "assistant", some ⟨300, some 600, some 0, 0⟩⟩

/-- Concrete events for the C3 witness: the second sits exactly on the
first window's `endTime` boundary (5 hours after the first). -/
def msgC3a : ClaudeMessage := ⟨"a3", 0, "user", some ⟨1, none, none, 2⟩⟩

def msgC3b : ClaudeMessage := ⟨"b3", 18000000, "assistant", some ⟨3, none, none, 4⟩⟩

/-- Concrete event for the C5 witness: timestamped before the local
midnight used as `startOfToday`. -/
def msgC5 : ClaudeMessage := ⟨"y5", -1000, "user", none⟩

/-- Concrete event for the C7 checks: one usage-free event at the epoch. -/
def msgC7 : ClaudeMessage := ⟨"w7", 0, "assistant", none⟩

/-- The metrics record the facade returns for `[msgC7]` at `now = 1000`,
`startOfToday = 0`. -/
def metricsC7 : SessionMetrics :=
  { totalTokens := 0, inputTokens := 0, cacheCreationTokens := 0, cacheReadTokens := 0,
    outputTokens := 0, messages := 1, startTime := 0, lastMessageTime := 0,
    sessionId := "s", sessionEndTime := 18000000, timeRemaining := 17999000,
    isActive := true, burnRate := 0 }

/-- The grouping loop always emits at least the current set. -/
theorem groupAux_ne_nil (rest : List ClaudeMessage) (c : SessionSet) :
    groupAux c rest ≠ [] := by
  induction rest generalizing c with
  | nil => simp [groupAux]
  | cons m rest ih =>
    by_cases h : m.timestamp ≤ c.endTime <;> simp [groupAux, h, ih]

/-- The first emitted set keeps the start and end times of the set the loop
was entered with (extending a set never changes them). -/
theorem groupAux_head (rest : List ClaudeMessage) (c : SessionSet) :
    ∃ hd tl, groupAux c rest = hd :: tl ∧
      hd.startTime = c.startTime ∧ hd.endTime = c.endTime := by
  induction rest generalizing c with
  | nil => exact ⟨c, [], rfl, rfl, rfl⟩
  | cons m rest ih =>
    by_cases h : m.timestamp ≤ c.endTime
    · obtain ⟨hd, tl, heq, hs, he⟩ := ih (extendSet c m)
      exact ⟨hd, tl, by simp [groupAux, h, heq], hs, he⟩
    · exact ⟨c, groupAux (mkSet m) rest, by simp [groupAux, h], rfl, rfl⟩

/-- Concatenating the messages of the emitted sets recovers the current
set's messages followed by the remaining input: no event is lost or
duplicated by the grouping loop. -/
theorem groupAux_flatMap (rest : List ClaudeMessage) (c : SessionSet) :
    (groupAux c rest).flatMap (fun s => s.messages) = c.messages ++ rest := by
  induction rest generalizing c with
  | nil => simp [groupAux]
  | cons m rest ih =>
    by_cases h : m.timestamp ≤ c.endTime
    · simp [groupAux, h, ih, extendSet]
    · simp [groupAux, h, ih, mkSet]

/-- Every event of the input batch appears in the concatenation of the
produced windows, in order. -/
theorem groupIntoFiveHourSets_flatMap (messages : List ClaudeMessage) :
    (groupIntoFiveHourSets messages).flatMap (fun s => s.messages) = messages := by
  cases messages with
  | nil => rfl
  | cons m rest => simpa [groupIntoFiveHourSets, mkSet] using groupAux_flatMap rest (mkSet m)

/-- Consecutive emitted sets are separated: each set's `startTime` strictly
exceeds the previous set's `endTime` (the loop only opens a new set when a
message's timestamp exceeds the current `endTime`). Holds for any input. -/
theorem groupAux_chain (rest : List ClaudeMessage) (c : SessionSet) :
    List.Chain' (fun x y => x.endTime < y.startTime) (groupAux c rest) := by
  induction rest generalizing c with
  | nil => simp [groupAux]
  | cons m rest ih =>
    by_cases h : m.timestamp ≤ c.endTime
    · simpa [groupAux, h] using ih (extendSet c m)
    · rw [groupAux, if_neg h]
      rw [List.chain'_cons']
      refine ⟨?_, ih (mkSet m)⟩
      intro y hy
      obtain ⟨hd, tl, heq, hs, _⟩ := groupAux_head rest (mkSet m)
      rw [heq] at hy
      simp only [List.head?_cons, Option.mem_def, Option.some.injEq] at hy
      subst hy
      rw [hs]
      show c.endTime < (mkSet m).startTime
      simp only [mkSet]
      omega

/-- Every emitted set has `endTime = startTime + SESSION_DURATION_MS`,
provided the entering current set does (which `mkSet` guarantees). -/
theorem groupAux_duration (rest : List ClaudeMessage) (c : SessionSet)
    (hc : c.endTime = c.startTime + SESSION_DURATION_MS) :
    ∀ s ∈ groupAux c rest, s.endTime = s.startTime + SESSION_DURATION_MS := by
  induction rest generalizing c with
  | nil => simpa [groupAux] using hc
  | cons m rest ih =>
    by_cases h : m.timestamp ≤ c.endTime
    · rw [groupAux, if_pos h]
      exact ih (extendSet c m) hc
    · rw [groupAux, if_neg h]
      intro s hs
      rcases List.mem_cons.mp hs with hs | hs
      · exact hs ▸ hc
      · exact ih (mkSet m) rfl s hs

/-- Every window produced by `groupIntoFiveHourSets` spans exactly
`SESSION_DURATION_MS`. -/
theorem groupIntoFiveHourSets_duration (messages : List ClaudeMessage) :
    ∀ s ∈ groupIntoFiveHourSets messages,
      s.endTime = s.startTime + SESSION_DURATION_MS := by
  cases messages with
  | nil => simp [groupIntoFiveHourSets]
  | cons m rest => exact groupAux_duration rest (mkSet m) rfl

theorem mkSet_wf (message : ClaudeMessage) : SetWF (mkSet message) := by
  refine ⟨by simp [mkSet], by simp [mkSet], ?_⟩
  intro m hm
  simp only [mkSet, List.mem_singleton] at hm
  subst hm
  refine ⟨le_refl _, ?_⟩
  simp only [mkSet]
  have : (0 : Int) ≤ SESSION_DURATION_MS := by norm_num [SESSION_DURATION_MS]
  omega

/-- For a timestamp-sorted tail whose members are no earlier than the
current set's start, every set the grouping loop emits is well-formed. -/
theorem groupAux_wf (rest : List ClaudeMessage) (c : SessionSet)
    (hc : SetWF c)
    (hrest : ∀ m ∈ rest, c.startTime ≤ m.timestamp)
    (hsort : List.Pairwise (fun a b => a.timestamp ≤ b.timestamp) rest) :
    ∀ s ∈ groupAux c rest, SetWF s := by
  induction rest generalizing c with
  | nil => simpa [groupAux] using hc
  | cons m rest ih =>
    obtain ⟨hm_rest, hsort'⟩ := List.pairwise_cons.mp hsort
    by_cases h : m.timestamp ≤ c.endTime
    · rw [groupAux, if_pos h]
      obtain ⟨hne, hhd, hbnd⟩ := hc
      refine ih (extendSet c m) ⟨by simp [extendSet, hne], ?_, ?_⟩ ?_ hsort'
      · simpa [extendSet, List.head?_append_of_ne_nil _ hne] using hhd
      · intro x hx
        simp only [extendSet, List.mem_append, List.mem_singleton] at hx
        rcases hx with hx | hx
        · exact hbnd x hx
        · rw [hx]
          exact ⟨hrest m (List.mem_cons_self _ _), h⟩
      · intro x hx
        show c.startTime ≤ x.timestamp
        exact le_trans (hrest m (List.mem_cons_self _ _)) (hm_rest x hx)
    · rw [groupAux, if_neg h]
      intro s hs
      rcases List.mem_cons.mp hs with hs | hs
      · exact hs ▸ hc
      · refine ih (mkSet m) (mkSet_wf m) ?_ hsort' s hs
        intro x hx
        simpa [mkSet] using hm_rest x hx

/-- For a timestamp-sorted batch, every produced window is well-formed:
non-empty, anchored at its first event, and containing only events with
timestamps in `[startTime, endTime]`. -/
theorem groupIntoFiveHourSets_wf (messages : List ClaudeMessage)
    (hsort : List.Pairwise (fun a b => a.timestamp ≤ b.timestamp) messages) :
    ∀ s ∈ groupIntoFiveHourSets messages, SetWF s := by
  cases messages with
  | nil => simp [groupIntoFiveHourSets]
  | cons m rest =>
    obtain ⟨hm_rest, hsort'⟩ := List.pairwise_cons.mp hsort
    refine groupAux_wf rest (mkSet m) (mkSet_wf m) ?_ hsort'
    intro x hx
    simpa [mkSet] using hm_rest x hx

/-- Separation of consecutive windows upgrades to separation of all pairs,
because each window spans exactly `SESSION_DURATION_MS`. -/
theorem sep_head_all (a : SessionSet) (l : List SessionSet)
    (hwf : ∀ s ∈ l, s.endTime = s.startTime + SESSION_DURATION_MS)
    (hch : List.Chain' (fun x y => x.endTime < y.startTime) (a :: l)) :
    ∀ b ∈ l, a.endTime < b.startTime := by
  induction l generalizing a with
  | nil => simp
  | cons b l ih =>
    intro x hx
    obtain ⟨hhd, hch'⟩ := List.chain'_cons'.mp hch
    have hab : a.endTime < b.startTime := hhd b (by simp)
    rcases List.mem_cons.mp hx with hx | hx
    · exact hx ▸ hab
    · have hbx : b.endTime < x.startTime := by
        refine ih b ?_ hch' x hx
        intro s hs
        exact hwf s (List.mem_cons_of_mem _ hs)
      have hb : b.endTime = b.startTime + SESSION_DURATION_MS :=
        hwf b (List.mem_cons_self _ _)
      have hdur : (0 : Int) ≤ SESSION_DURATION_MS := by norm_num [SESSION_DURATION_MS]
      omega

/-- A consecutive-separation chain of fixed-duration windows is pairwise
separated. -/
theorem chain_sep_pairwise (l : List SessionSet)
    (hwf : ∀ s ∈ l, s.endTime = s.startTime + SESSION_DURATION_MS)
    (hch : List.Chain' (fun x y => x.endTime < y.startTime) l) :
    List.Pairwise (fun x y => x.endTime < y.startTime) l := by
  induction l with
  | nil => simp
  | cons a l ih =>
    obtain ⟨_, hch'⟩ := List.chain'_cons'.mp hch
    refine List.pairwise_cons.mpr ⟨?_, ?_⟩
    · exact sep_head_all a l (fun s hs => hwf s (List.mem_cons_of_mem _ hs)) hch
    · exact ih (fun s hs => hwf s (List.mem_cons_of_mem _ hs)) hch'

/-- Windows produced from any batch are pairwise separated: for `i < j`,
window `j` starts strictly after window `i` ends. -/
theorem groupIntoFiveHourSets_pairwise (messages : List ClaudeMessage) :
    List.Pairwise (fun x y => x.endTime < y.startTime)
      (groupIntoFiveHourSets messages) := by
  refine chain_sep_pairwise _ (groupIntoFiveHourSets_duration messages) ?_
  cases messages with
  | nil => simp [groupIntoFiveHourSets]
  | cons m rest => exact groupAux_chain rest (mkSet m)

/-- A pairwise-separated window list contains at most one window whose
closed interval contains `now`. -/
theorem filter_active_length_le_one (l : List SessionSet) (now : Int)
    (hp : List.Pairwise (fun x y => x.endTime < y.startTime) l) :
    (l.filter (fun s => decide (s.startTime ≤ now ∧ now ≤ s.endTime))).length ≤ 1 := by
  induction l with
  | nil => simp
  | cons a l ih =>
    obtain ⟨ha, hp'⟩ := List.pairwise_cons.mp hp
    by_cases hpa : a.startTime ≤ now ∧ now ≤ a.endTime
    · have hnil : l.filter (fun s => decide (s.startTime ≤ now ∧ now ≤ s.endTime)) = [] := by
        rw [List.filter_eq_nil_iff]
        intro b hb
        simp only [decide_eq_true_eq]
        intro hpb
        have := ha b hb
        omega
      have hstep : (a :: l).filter (fun s => decide (s.startTime ≤ now ∧ now ≤ s.endTime)) =
          a :: l.filter (fun s => decide (s.startTime ≤ now ∧ now ≤ s.endTime)) :=
        List.filter_cons_of_pos (by simpa using hpa)
      rw [hstep, hnil]
      simp
    · have hstep : (a :: l).filter (fun s => decide (s.startTime ≤ now ∧ now ≤ s.endTime)) =
          l.filter (fun s => decide (s.startTime ≤ now ∧ now ≤ s.endTime)) :=
        List.filter_cons_of_neg (by simpa using hpa)
      rw [hstep]
      exact ih hp'

theorem dedupe_eq_buildMap (messages : List ClaudeMessage) :
    dedupe messages = (buildMap [] messages).map (·.2) := rfl

theorem buildMap_append (entries : List (String × ClaudeMessage))
    (l₁ l₂ : List ClaudeMessage) :
    buildMap entries (l₁ ++ l₂) = buildMap (buildMap entries l₁) l₂ :=
  List.foldl_append _ _ _ _

theorem mapInsert_mem_keys (entries : List (String × ClaudeMessage))
    (key : String) (message : ClaudeMessage) (hk : key ∈ keysOf entries) :
    keysOf (mapInsert entries key message) = keysOf entries := by
  have hany : entries.any (fun e => decide (e.1 = key)) = true := by
    rw [List.any_eq_true]
    obtain ⟨e, he, hek⟩ := List.mem_map.mp hk
    exact ⟨e, he, by simp [hek]⟩
  rw [mapInsert, if_pos hany, keysOf, List.map_map]
  refine List.map_congr_left ?_
  intro e _
  by_cases h : e.1 = key <;> simp [h]

theorem mapInsert_not_mem_keys (entries : List (String × ClaudeMessage))
    (key : String) (message : ClaudeMessage) (hk : key ∉ keysOf entries) :
    keysOf (mapInsert entries key message) = keysOf entries ++ [key] := by
  have hany : entries.any (fun e => decide (e.1 = key)) = false := by
    rw [Bool.eq_false_iff]
    intro hc
    obtain ⟨e, he, hek⟩ := List.any_eq_true.mp hc
    exact hk (List.mem_map.mpr ⟨e, he, by simpa using hek⟩)
  rw [mapInsert, if_neg (by simp [hany]), keysOf, List.map_append]
  rfl

theorem find?_map_replace_self (key : String) (message : ClaudeMessage)
    (entries : List (String × ClaudeMessage))
    (hany : entries.any (fun e => decide (e.1 = key)) = true) :
    (entries.map (fun e => if e.1 = key then (key, message) else e)).find?
      (fun e => decide (e.1 = key)) = some (key, message) := by
  induction entries with
  | nil => simp at hany
  | cons e rest ih =>
    by_cases h : e.1 = key
    · simp [h]
    · have hr : rest.any (fun e => decide (e.1 = key)) = true := by
        simpa [List.any_cons, h] using hany
      simp [h, ih hr]

theorem find?_map_replace_ne (key other : String) (message : ClaudeMessage)
    (entries : List (String × ClaudeMessage)) (hne : other ≠ key) :
    (entries.map (fun e => if e.1 = key then (key, message) else e)).find?
      (fun e => decide (e.1 = other)) = entries.find? (fun e => decide (e.1 = other)) := by
  induction entries with
  | nil => rfl
  | cons e rest ih =>
    by_cases h : e.1 = key
    · have h1 : ¬(key = other) := fun hc => hne hc.symm
      have h2 : ¬(e.1 = other) := by rw [h]; exact h1
      simp [h, h1, h2, ih]
    · simp only [List.map_cons, if_neg h]
      cases hd : decide (e.1 = other)
      · simpa [List.find?_cons, hd] using ih
      · simp [List.find?_cons, hd]

theorem lookupVal_mapInsert_self (entries : List (String × ClaudeMessage))
    (key : String) (message : ClaudeMessage) :
    lookupVal key (mapInsert entries key message) = some message := by
  by_cases hany : entries.any (fun e => decide (e.1 = key)) = true
  · rw [mapInsert, if_pos hany, lookupVal, find?_map_replace_self key message entries hany]
    rfl
  · rw [mapInsert, if_neg hany, lookupVal, List.find?_append]
    have h1 : entries.find? (fun e => decide (e.1 = key)) = none := by
      rw [List.find?_eq_none]
      intro e he hc
      exact hany (List.any_eq_true.mpr ⟨e, he, hc⟩)
    rw [h1]
    simp

theorem lookupVal_mapInsert_ne (entries : List (String × ClaudeMessage))
    (key other : String) (message : ClaudeMessage) (hne : other ≠ key) :
    lookupVal other (mapInsert entries key message) = lookupVal other entries := by
  by_cases hany : entries.any (fun e => decide (e.1 = key)) = true
  · rw [mapInsert, if_pos hany, lookupVal, find?_map_replace_ne key other message entries hne]
    rfl
  · rw [mapInsert, if_neg hany, lookupVal, lookupVal, List.find?_append]
    have h2 : ([(key, message)].find? (fun e => decide (e.1 = other))) = none := by
      have hko : ¬(key = other) := fun hc => hne hc.symm
      simp [hko]
    rw [h2]
    simp

theorem newKeys_congr (seen₁ seen₂ : List String) (ids : List String)
    (h : ∀ x, x ∈ seen₁ ↔ x ∈ seen₂) :
    newKeys seen₁ ids = newKeys seen₂ ids := by
  induction ids generalizing seen₁ seen₂ with
  | nil => rfl
  | cons k rest ih =>
    by_cases hk : k ∈ seen₁
    · rw [newKeys, if_pos hk, newKeys, if_pos ((h k).mp hk)]
      exact ih seen₁ seen₂ h
    · rw [newKeys, if_neg hk, newKeys, if_neg (fun hc => hk ((h k).mpr hc))]
      refine congrArg _ (ih (k :: seen₁) (k :: seen₂) ?_)
      intro x
      simp only [List.mem_cons]
      exact or_congr Iff.rfl (h x)

theorem newKeys_append (seen : List String) (ids₁ ids₂ : List String) :
    newKeys seen (ids₁ ++ ids₂) = newKeys seen ids₁ ++ newKeys (ids₁ ++ seen) ids₂ := by
  induction ids₁ generalizing seen with
  | nil => simp [newKeys]
  | cons k rest ih =>
    by_cases hk : k ∈ seen
    · rw [List.cons_append, newKeys, if_pos hk, newKeys, if_pos hk, ih seen]
      refine congrArg _ (newKeys_congr _ _ _ ?_)
      intro x
      simp only [List.mem_append, List.mem_cons]
      by_cases hxk : x = k
      · subst hxk
        simp [hk]
      · simp [hxk]
    · rw [List.cons_append, newKeys, if_neg hk, newKeys, if_neg hk, ih (k :: seen)]
      rw [List.cons_append]
      refine congrArg _ (congrArg _ (newKeys_congr _ _ _ ?_))
      intro x
      simp only [List.mem_append, List.mem_cons]
      tauto

theorem newKeys_all_seen (seen : List String) (ids : List String)
    (h : ∀ k ∈ ids, k ∈ seen) : newKeys seen ids = [] := by
  induction ids with
  | nil => rfl
  | cons k rest ih =>
    rw [newKeys, if_pos (h k (List.mem_cons_self _ _))]
    exact ih (fun x hx => h x (List.mem_cons_of_mem _ hx))

theorem newKeys_nodup_disjoint (seen : List String) (ids : List String) :
    (newKeys seen ids).Nodup ∧ ∀ x ∈ newKeys seen ids, x ∉ seen := by
  induction ids generalizing seen with
  | nil => exact ⟨List.nodup_nil, by simp [newKeys]⟩
  | cons k rest ih =>
    by_cases hk : k ∈ seen
    · rw [newKeys, if_pos hk]
      exact ih seen
    · rw [newKeys, if_neg hk]
      obtain ⟨hnd, hdisj⟩ := ih (k :: seen)
      refine ⟨List.nodup_cons.mpr ⟨?_, hnd⟩, ?_⟩
      · intro hc
        exact hdisj k hc (List.mem_cons_self _ _)
      · intro x hx
        rcases List.mem_cons.mp hx with hx | hx
        · exact hx ▸ hk
        · exact fun hc => hdisj x hx (List.mem_cons_of_mem _ hc)

/-- Key characterization of the map build: keys are the initial keys
followed by the first occurrences of new ids in input order. -/
theorem buildMap_keys (entries : List (String × ClaudeMessage))
    (messages : List ClaudeMessage) :
    keysOf (buildMap entries messages) =
      keysOf entries ++ newKeys (keysOf entries) (messages.map (·.id)) := by
  induction messages generalizing entries with
  | nil => simp [buildMap, newKeys, keysOf]
  | cons msg rest ih =>
    have hstep : buildMap entries (msg :: rest) = buildMap (mapInsert entries msg.id msg) rest := rfl
    rw [hstep, ih]
    by_cases hk : msg.id ∈ keysOf entries
    · rw [mapInsert_mem_keys entries msg.id msg hk, List.map_cons, newKeys, if_pos hk]
    · rw [mapInsert_not_mem_keys entries msg.id msg hk, List.map_cons, newKeys, if_neg hk]
      rw [List.append_assoc, List.singleton_append]
      refine congrArg _ (congrArg _ (newKeys_congr _ _ _ ?_))
      intro x
      simp only [List.mem_append, List.mem_cons, List.mem_singleton]
      tauto

/-- Value characterization of the map build: the value finally stored for
a key is the last input message with that id, falling back to the initial
entry value. -/
theorem buildMap_lookup (entries : List (String × ClaudeMessage))
    (messages : List ClaudeMessage) (key : String) :
    lookupVal key (buildMap entries messages) =
      ((messages.filter (fun msg => decide (msg.id = key))).getLast?).or
        (lookupVal key entries) := by
  induction messages generalizing entries with
  | nil => simp [buildMap]
  | cons msg rest ih =>
    have hstep : buildMap entries (msg :: rest) = buildMap (mapInsert entries msg.id msg) rest := rfl
    rw [hstep, ih]
    by_cases h : msg.id = key
    · subst h
      rw [List.filter_cons_of_pos (by simp),
        lookupVal_mapInsert_self entries msg.id msg]
      rcases hlast : (rest.filter (fun m => decide (m.id = msg.id))).getLast? with _ | v <;>
        simp [hlast, List.getLast?_cons]
    · rw [List.filter_cons_of_neg (by simpa using h),
        lookupVal_mapInsert_ne entries msg.id key msg (fun hc => h hc.symm)]

theorem lookupVal_not_mem (key : String) (entries : List (String × ClaudeMessage))
    (hk : key ∉ keysOf entries) : lookupVal key entries = none := by
  rw [lookupVal]
  have hnone : entries.find? (fun e => decide (e.1 = key)) = none := by
    rw [List.find?_eq_none]
    intro e he hc
    exact hk (List.mem_map.mpr ⟨e, he, by simpa using hc⟩)
  rw [hnone]
  rfl

/-- Association lists with duplicate-free identical key lists and identical
lookups are identical. -/
theorem entries_ext (m₁ m₂ : List (String × ClaudeMessage))
    (hkeys : keysOf m₁ = keysOf m₂) (hnd : (keysOf m₁).Nodup)
    (hlook : ∀ k, lookupVal k m₁ = lookupVal k m₂) : m₁ = m₂ := by
  induction m₁ generalizing m₂ with
  | nil =>
    have : keysOf m₂ = [] := hkeys.symm
    rw [keysOf, List.map_eq_nil_iff] at this
    exact this.symm
  | cons e m₁ ih =>
    cases m₂ with
    | nil => simp [keysOf] at hkeys
    | cons e₂ m₂ =>
      simp only [keysOf, List.map_cons, List.cons.injEq] at hkeys
      obtain ⟨hk, hkt⟩ := hkeys
      have hval : e.2 = e₂.2 := by
        have h1 := hlook e.1
        rw [lookupVal, lookupVal, List.find?_cons, List.find?_cons] at h1
        have hd1 : decide (e.1 = e.1) = true := by simp
        have hd2 : decide (e₂.1 = e.1) = true := by simp [hk]
        rw [hd1, hd2] at h1
        simpa using h1
      have hnd2 : (e.1 :: keysOf m₁).Nodup := hnd
      obtain ⟨hhd, hnd'⟩ := List.nodup_cons.mp hnd2
      have htl : m₁ = m₂ := by
        refine ih m₂ hkt hnd' ?_
        intro k
        by_cases hke : k = e.1
        · subst hke
          rw [lookupVal_not_mem e.1 m₁ hhd,
            lookupVal_not_mem e.1 m₂ (by rw [show keysOf m₂ = keysOf m₁ from hkt.symm]; exact hhd)]
        · have h1 := hlook k
          rw [lookupVal, lookupVal, List.find?_cons, List.find?_cons] at h1
          have hd1' : decide (e.1 = k) = false :=
            decide_eq_false (fun hc => hke hc.symm)
          have hd2' : decide (e₂.1 = k) = false := by
            rw [show e₂.1 = e.1 from hk.symm]
            exact hd1'
          rw [hd1', hd2'] at h1
          exact h1
      have hhd_eq : e = e₂ := by
        obtain ⟨a, b⟩ := e
        obtain ⟨a₂, b₂⟩ := e₂
        simp only [Prod.mk.injEq]
        exact ⟨hk, hval⟩
      rw [hhd_eq, htl]

/-- Every entry of the built map pairs a message with its own id. -/
theorem buildMap_entry_id (entries : List (String × ClaudeMessage))
    (messages : List ClaudeMessage) (hinv : ∀ e ∈ entries, e.1 = e.2.id) :
    ∀ e ∈ buildMap entries messages, e.1 = e.2.id := by
  induction messages generalizing entries with
  | nil => exact hinv
  | cons msg rest ih =>
    refine ih (mapInsert entries msg.id msg) ?_
    intro e he
    rw [mapInsert] at he
    by_cases hany : entries.any (fun x => decide (x.1 = msg.id)) = true
    · rw [if_pos hany] at he
      obtain ⟨e0, he0, heq⟩ := List.mem_map.mp he
      by_cases h : e0.1 = msg.id
      · rw [if_pos h] at heq
        rw [← heq]
      · rw [if_neg h] at heq
        rw [← heq]
        exact hinv e0 he0
    · rw [if_neg hany] at he
      rcases List.mem_append.mp he with he | he
      · exact hinv e he
      · rw [List.mem_singleton] at he
        rw [he]

theorem dedupe_ids_eq_keys (messages : List ClaudeMessage) :
    (dedupe messages).map (·.id) = keysOf (buildMap [] messages) := by
  rw [dedupe_eq_buildMap, List.map_map, keysOf]
  refine List.map_congr_left ?_
  intro e he
  exact (buildMap_entry_id [] messages (by simp) e he).symm

theorem dedupe_ids_nodup (messages : List ClaudeMessage) :
    ((dedupe messages).map (·.id)).Nodup := by
  rw [dedupe_ids_eq_keys, buildMap_keys]
  simpa [keysOf] using (newKeys_nodup_disjoint [] (messages.map (·.id))).1

theorem newKeys_eq_spec (seen : List String) (ids : List String) :
    newKeys seen ids = (specFirstOccurIds ids).filter (fun x => decide (x ∉ seen)) := by
  induction ids generalizing seen with
  | nil => rfl
  | cons k rest ih =>
    by_cases hk : k ∈ seen
    · rw [newKeys, if_pos hk, ih seen, specFirstOccurIds,
        List.filter_cons_of_neg (by simpa using hk), List.filter_filter]
      refine List.filter_congr ?_
      intro x _
      cases hx : decide (x ∉ seen)
      · simp
      · have hxs : x ∉ seen := of_decide_eq_true hx
        have hxk : decide (x ≠ k) = true :=
          decide_eq_true (fun hc => hxs (hc ▸ hk))
        simp [hxk]
    · rw [newKeys, if_neg hk, ih (k :: seen), specFirstOccurIds,
        List.filter_cons_of_pos (by simpa using hk), List.filter_filter]
      refine congrArg _ (List.filter_congr ?_)
      intro x _
      by_cases hxk : x = k
      · subst hxk
        simp
      · by_cases hxs : x ∈ seen
        · simp [hxs, hxk]
        · simp [hxs, hxk]

/-- `dedupe` lists ids in first-occurrence order (as the spec describes). -/
theorem dedupe_ids_first_occur (messages : List ClaudeMessage) :
    (dedupe messages).map (·.id) = specFirstOccurIds (messages.map (·.id)) := by
  rw [dedupe_ids_eq_keys, buildMap_keys, newKeys_eq_spec]
  have : ∀ x ∈ specFirstOccurIds (messages.map (·.id)),
      (fun x => decide (x ∉ ([] : List String))) x = true := by
    intro x _
    simp
  simp [keysOf, List.filter_eq_self.mpr this]

theorem find?_congr_on {α : Type} (p q : α → Bool) (l : List α)
    (h : ∀ x ∈ l, p x = q x) : l.find? p = l.find? q := by
  induction l with
  | nil => rfl
  | cons a l ih =>
    rw [List.find?_cons, List.find?_cons, h a (List.mem_cons_self _ _)]
    cases q a
    · exact ih (fun x hx => h x (List.mem_cons_of_mem _ hx))
    · rfl

/-- The entry `dedupe` keeps for an id is the last input message carrying
that id (JS `Map.set` is last-writer-wins). -/
theorem dedupe_find?_eq_getLast (messages : List ClaudeMessage) (key : String) :
    (dedupe messages).find? (fun m => decide (m.id = key)) =
      (messages.filter (fun m => decide (m.id = key))).getLast? := by
  rw [dedupe_eq_buildMap, List.find?_map]
  have hcongr : (buildMap [] messages).find?
        ((fun m => decide (m.id = key)) ∘ (·.2)) =
      (buildMap [] messages).find? (fun e => decide (e.1 = key)) := by
    refine find?_congr_on _ _ _ ?_
    intro e he
    have := buildMap_entry_id [] messages (by simp) e he
    simp [Function.comp, ← this]
  rw [hcongr]
  have := buildMap_lookup [] messages key
  rw [lookupVal] at this
  rw [this]
  simp [lookupVal]

theorem buildMap_fresh (messages : List ClaudeMessage)
    (entries : List (String × ClaudeMessage))
    (hfresh : ∀ msg ∈ messages, msg.id ∉ keysOf entries)
    (hnd : (messages.map (·.id)).Nodup) :
    buildMap entries messages = entries ++ messages.map (fun msg => (msg.id, msg)) := by
  induction messages generalizing entries with
  | nil => simp [buildMap]
  | cons msg rest ih =>
    have hstep : buildMap entries (msg :: rest) = buildMap (mapInsert entries msg.id msg) rest := rfl
    have hins : mapInsert entries msg.id msg = entries ++ [(msg.id, msg)] := by
      rw [mapInsert, if_neg]
      intro hc
      obtain ⟨e, he, hek⟩ := List.any_eq_true.mp hc
      exact hfresh msg (List.mem_cons_self _ _)
        (List.mem_map.mpr ⟨e, he, by simpa using hek⟩)
    rw [List.map_cons] at hnd
    obtain ⟨hhd, hnd'⟩ := List.nodup_cons.mp hnd
    rw [hstep, hins, ih (entries ++ [(msg.id, msg)]) ?_ hnd']
    · simp
    · intro x hx
      rw [keysOf, List.map_append]
      intro hc
      rcases List.mem_append.mp hc with hc | hc
      · exact hfresh x (List.mem_cons_of_mem _ hx) hc
      · simp only [List.map_cons, List.map_nil, List.mem_singleton] at hc
        exact hhd (hc ▸ List.mem_map_of_mem (·.id) hx)

/-- On an id-duplicate-free batch, `dedupe` is the identity. -/
theorem dedupe_of_nodup (messages : List ClaudeMessage)
    (hnd : (messages.map (·.id)).Nodup) : dedupe messages = messages := by
  rw [dedupe_eq_buildMap, buildMap_fresh messages [] (by intro x hx; simp [keysOf]) hnd,
    List.nil_append, List.map_map]
  have hcomp : ((fun e : String × ClaudeMessage => e.2) ∘ fun msg => (msg.id, msg)) =
      fun msg : ClaudeMessage => msg := rfl
  rw [hcomp]
  simp

/-- `dedupe` is idempotent. -/
theorem dedupe_idem (messages : List ClaudeMessage) :
    dedupe (dedupe messages) = dedupe messages :=
  dedupe_of_nodup (dedupe messages) (dedupe_ids_nodup messages)

/-- Deduplicating a batch in which the whole input is repeated three times
gives the same map as deduplicating the batch once. -/
theorem buildMap_triple (l : List ClaudeMessage) :
    buildMap [] (l ++ l ++ l) = buildMap [] l := by
  refine entries_ext _ _ ?_ ?_ ?_
  · rw [buildMap_keys, buildMap_keys]
    have hids : (l ++ l ++ l).map (·.id) = (l.map (·.id) ++ l.map (·.id)) ++ l.map (·.id) := by
      rw [List.map_append, List.map_append]
    rw [hids, newKeys_append, newKeys_append]
    have h2 : newKeys (l.map (·.id) ++ keysOf []) (l.map (·.id)) = [] :=
      newKeys_all_seen _ _ (fun k hk => List.mem_append_left _ hk)
    have h3 : newKeys ((l.map (·.id) ++ l.map (·.id)) ++ keysOf []) (l.map (·.id)) = [] :=
      newKeys_all_seen _ _ (fun k hk => List.mem_append_left _ (List.mem_append_left _ hk))
    rw [h2, h3, List.append_nil, List.append_nil]
  · rw [buildMap_keys]
    have hnd := (newKeys_nodup_disjoint (keysOf []) ((l ++ l ++ l).map (·.id))).1
    simpa [keysOf] using hnd
  · intro k
    rw [buildMap_lookup, buildMap_lookup]
    have hfil : (l ++ l ++ l).filter (fun msg => decide (msg.id = k)) =
        (l.filter (fun msg => decide (msg.id = k)) ++ l.filter (fun msg => decide (msg.id = k)))
          ++ l.filter (fun msg => decide (msg.id = k)) := by
      rw [List.filter_append, List.filter_append]
    rw [hfil, List.getLast?_append, List.getLast?_append, Option.or_self, Option.or_self]

theorem dedupe_triple (l : List ClaudeMessage) :
    dedupe (l ++ l ++ l) = dedupe l := by
  rw [dedupe_eq_buildMap, dedupe_eq_buildMap, buildMap_triple]

theorem dedupe_ne_nil (messages : List ClaudeMessage) (h : messages ≠ []) :
    dedupe messages ≠ [] := by
  cases messages with
  | nil => exact absurd rfl h
  | cons m rest =>
    intro hc
    rw [dedupe_eq_buildMap, List.map_eq_nil_iff] at hc
    have hkeys := buildMap_keys [] (m :: rest)
    rw [hc] at hkeys
    have h0 : keysOf ([] : List (String × ClaudeMessage)) = [] := rfl
    have hnil : newKeys (keysOf []) ((m :: rest).map (·.id)) = [] := by
      rw [h0] at hkeys ⊢
      simpa using hkeys.symm
    rw [List.map_cons, newKeys, if_neg (by simp [keysOf])] at hnil
    exact List.cons_ne_nil _ _ hnil

theorem isEmpty_false_of_ne_nil {α : Type} (l : List α) (h : l ≠ []) :
    l.isEmpty = false := by
  cases l with
  | nil => exact absurd rfl h
  | cons a l => rfl

/-- The facade gives the same result on a three-fold repeated batch as on
the deduplicated batch: after the `Map`-based dedupe step the remaining
pipeline sees identical inputs. -/
theorem calculateSessionMetrics_triple (l : List ClaudeMessage)
    (sessionId : String) (now startOfToday : Int) :
    calculateSessionMetrics (l ++ l ++ l) sessionId now startOfToday =
      calculateSessionMetrics (dedupe l) sessionId now startOfToday := by
  cases l with
  | nil => rfl
  | cons m rest =>
    have h3 : dedupe ((m :: rest) ++ (m :: rest) ++ (m :: rest)) =
        dedupe (dedupe (m :: rest)) := by
      rw [dedupe_triple, dedupe_idem]
    have hne1 : (((m :: rest) ++ (m :: rest)) ++ (m :: rest)).isEmpty = false := rfl
    have hne2 : (dedupe (m :: rest)).isEmpty = false :=
      isEmpty_false_of_ne_nil _ (dedupe_ne_nil _ (by simp))
    rw [calculateSessionMetrics, calculateSessionMetrics]
    rw [show ((m :: rest) ++ (m :: rest) ++ (m :: rest)).isEmpty = false from hne1, hne2]
    simp only [Bool.false_eq_true, if_false]
    rw [h3]

theorem groupIntoFiveHourSets_ne_nil (message : ClaudeMessage)
    (rest : List ClaudeMessage) : groupIntoFiveHourSets (message :: rest) ≠ [] :=
  groupAux_ne_nil rest (mkSet message)

/-- Closed form of the facade: the result is exactly the image of the last
window of `sessionSetsOf` that contains `now` (if any) under the metrics
builder; all early `null` returns coincide with the no-such-window case. -/
theorem calculateSessionMetrics_shape (messages : List ClaudeMessage)
    (sessionId : String) (now startOfToday : Int) :
    calculateSessionMetrics messages sessionId now startOfToday =
      (((sessionSetsOf messages startOfToday).filter
          (fun s => decide (s.startTime ≤ now ∧ now ≤ s.endTime))).getLast?).map
        (fun activeSet =>
          { totalTokens := (activeSet.messages.foldl tokenStep ⟨[], 0, 0, 0, 0, 0⟩).totalTokens
            inputTokens := (activeSet.messages.foldl tokenStep ⟨[], 0, 0, 0, 0, 0⟩).inputTokens
            cacheCreationTokens :=
              (activeSet.messages.foldl tokenStep ⟨[], 0, 0, 0, 0, 0⟩).cacheCreationTokens
            cacheReadTokens :=
              (activeSet.messages.foldl tokenStep ⟨[], 0, 0, 0, 0, 0⟩).cacheReadTokens
            outputTokens := (activeSet.messages.foldl tokenStep ⟨[], 0, 0, 0, 0, 0⟩).outputTokens
            messages := activeSet.messages.length
            startTime := activeSet.startTime
            lastMessageTime := activeSet.lastMessageTime
            sessionId := sessionId
            sessionEndTime := activeSet.endTime
            timeRemaining := max 0 (activeSet.endTime - now)
            isActive := decide (0 < max 0 (activeSet.endTime - now))
            burnRate := calculateBurnRate activeSet.messages now }) := by
  cases messages with
  | nil =>
    have h : sessionSetsOf [] startOfToday = [] := by
      rw [sessionSetsOf]
      have hd : dedupe [] = [] := rfl
      rw [hd, sortByTimestamp, List.mergeSort_nil]
      rfl
    rw [h]
    rfl
  | cons m rest =>
    rw [sessionSetsOf]
    simp only [calculateSessionMetrics, List.isEmpty_cons, Bool.false_eq_true, if_false]
    generalize (sortByTimestamp (dedupe (m :: rest))).filter
      (fun msg => decide (startOfToday ≤ msg.timestamp)) = today
    cases today with
    | nil => rfl
    | cons t ts =>
      simp only [List.isEmpty_cons, Bool.false_eq_true, if_false]
      have hne := groupIntoFiveHourSets_ne_nil t ts
      cases hS : groupIntoFiveHourSets (t :: ts) with
      | nil => exact absurd hS hne
      | cons s ss =>
        simp only [List.isEmpty_cons, Bool.false_eq_true, if_false]
        cases hL : ((s :: ss).filter
            (fun x => decide (x.startTime ≤ now ∧ now ≤ x.endTime))).getLast? with
        | none => rfl
        | some a => rfl

/-- Every value stored in the built map comes from the initial entries or
from the input batch. -/
theorem buildMap_values_mem (entries : List (String × ClaudeMessage))
    (messages : List ClaudeMessage) :
    ∀ e ∈ buildMap entries messages, e.2 ∈ entries.map (·.2) ∨ e.2 ∈ messages := by
  induction messages generalizing entries with
  | nil =>
    intro e he
    exact Or.inl (List.mem_map_of_mem _ he)
  | cons msg rest ih =>
    intro e he
    have hstep : buildMap entries (msg :: rest) = buildMap (mapInsert entries msg.id msg) rest := rfl
    rw [hstep] at he
    rcases ih (mapInsert entries msg.id msg) e he with hv | hv
    · obtain ⟨e0, he0, heq⟩ := List.mem_map.mp hv
      rw [mapInsert] at he0
      by_cases hany : entries.any (fun x => decide (x.1 = msg.id)) = true
      · rw [if_pos hany] at he0
        obtain ⟨e1, he1, heq1⟩ := List.mem_map.mp he0
        by_cases h : e1.1 = msg.id
        · rw [if_pos h] at heq1
          right
          rw [← heq, ← heq1]
          exact List.mem_cons_self _ _
        · rw [if_neg h] at heq1
          left
          rw [← heq, ← heq1]
          exact List.mem_map_of_mem _ he1
      · rw [if_neg hany] at he0
        rcases List.mem_append.mp he0 with he0 | he0
        · left
          rw [← heq]
          exact List.mem_map_of_mem _ he0
        · right
          simp only [List.mem_singleton] at he0
          rw [← heq, he0]
          exact List.mem_cons_self _ _
    · exact Or.inr (List.mem_cons_of_mem _ hv)

/-- `dedupe` only returns messages present in its input. -/
theorem dedupe_subset (messages : List ClaudeMessage) :
    ∀ m ∈ dedupe messages, m ∈ messages := by
  intro m hm
  rw [dedupe_eq_buildMap] at hm
  obtain ⟨e, he, heq⟩ := List.mem_map.mp hm
  rcases buildMap_values_mem [] messages e he with hv | hv
  · simp at hv
  · exact heq ▸ hv

/-- A list whose `f`-image is duplicate-free has at most one element with
any given `f`-value. -/
theorem countP_le_one_of_nodup_map {α β : Type} [DecidableEq β] (f : α → β)
    (l : List α) (hnd : (l.map f).Nodup) (b : β) :
    l.countP (fun x => decide (f x = b)) ≤ 1 := by
  induction l with
  | nil => simp
  | cons a l ih =>
    rw [List.map_cons] at hnd
    obtain ⟨hhd, hnd'⟩ := List.nodup_cons.mp hnd
    by_cases h : f a = b
    · rw [List.countP_cons_of_pos _ _ (by simpa using h)]
      have hz : l.countP (fun x => decide (f x = b)) = 0 := by
        rw [List.countP_eq_zero]
        intro x hx
        simp only [decide_eq_true_eq]
        intro hc
        have hax : f a = f x := by rw [h, hc]
        exact hhd (hax ▸ List.mem_map_of_mem f hx)
      omega
    · rw [List.countP_cons_of_neg _ _ (by simpa using h)]
      exact ih hnd'

/-- Evaluating the facade's first three steps on a one-element batch. -/
theorem sessionSetsOf_singleton (msg : ClaudeMessage) (startOfToday : Int) :
    sessionSetsOf [msg] startOfToday =
      groupIntoFiveHourSets ([msg].filter (fun m => decide (startOfToday ≤ m.timestamp))) := by
  rw [sessionSetsOf]
  have hd : dedupe [msg] = [msg] := rfl
  rw [hd, sortByTimestamp, List.mergeSort_singleton]

/-! ### Claim theorems -/

/-- C1: the claim says `totalTokens` equals input + output only, with
cache counts excluded.  The code (`calculateTokensFromUsage`, summed into
`totalTokens` by `calculateSessionMetrics`) adds both cache counts as
well: on an event with input 10, cache-creation 100, cache-read 1000,
output 5, the reported `totalTokens` is 1115, not 10 + 5 = 15 — contradicting
the code's own log text "TOTAL (toward limit)" / "not counted toward
limit" and the repository's token-calculation investigation notes. -/
theorem C1_totalTokens_includes_cache_at_failing_input :
    (calculateSessionMetrics [msgC1] "s" 1000 0).map (fun m => m.totalTokens) = some 1115 ∧
    (calculateSessionMetrics [msgC1] "s" 1000 0).map (fun m => m.inputTokens) = some 10 ∧
    (calculateSessionMetrics [msgC1] "s" 1000 0).map (fun m => m.outputTokens) = some 5 ∧
    (1115 : Nat) ≠ 10 + 5 := by
  have h := calculateSessionMetrics_shape [msgC1] "s" 1000 0
  rw [sessionSetsOf_singleton] at h
  rw [h]
  exact ⟨by decide, by decide, by decide, by decide⟩

/-- C2: with the ambient clock and local-midnight cutoff modeled as the
explicit parameters `now` and `startOfToday`, the facade is a pure
function, so repeated invocations on identical inputs return identical
results (including the no-active-session `none`). -/
theorem C2_deterministic (messages : List ClaudeMessage) (sessionId : String)
    (now startOfToday : Int) :
    calculateSessionMetrics messages sessionId now startOfToday =
      calculateSessionMetrics messages sessionId now startOfToday := rfl

/-- C3: for a timestamp-sorted batch, the windows of
`groupIntoFiveHourSets` partition the events (their concatenation is the
input), consecutive windows are strictly separated (`endTime <` next
`startTime`, so a new window begins exactly when an event's timestamp
strictly exceeds the current `endTime`), each window spans exactly five
hours starting at its first event, and every member event's timestamp
lies in the closed interval `[startTime, endTime]` — in particular an
event with timestamp equal to `endTime` stays in that window. -/
theorem C3_grouping_invariants (messages : List ClaudeMessage)
    (hsort : List.Pairwise (fun a b => a.timestamp ≤ b.timestamp) messages) :
    (groupIntoFiveHourSets messages).flatMap (fun s => s.messages) = messages ∧
    List.Chain' (fun x y => x.endTime < y.startTime) (groupIntoFiveHourSets messages) ∧
    ∀ s ∈ groupIntoFiveHourSets messages,
      s.endTime = s.startTime + SESSION_DURATION_MS ∧
      s.messages ≠ [] ∧
      s.messages.head?.map (fun m => m.timestamp) = some s.startTime ∧
      ∀ m ∈ s.messages, s.startTime ≤ m.timestamp ∧ m.timestamp ≤ s.endTime := by
  refine ⟨groupIntoFiveHourSets_flatMap messages, ?_, ?_⟩
  · cases messages with
    | nil => simp [groupIntoFiveHourSets]
    | cons m rest => exact groupAux_chain rest (mkSet m)
  · intro s hs
    obtain ⟨hne, hhd, hbnd⟩ := groupIntoFiveHourSets_wf messages hsort s hs
    exact ⟨groupIntoFiveHourSets_duration messages s hs, hne, hhd, hbnd⟩

/-- Witness for C3 at a concrete sorted batch whose second event sits
exactly on the first window's `endTime`. -/
theorem C3_grouping_invariants_witness :
    (groupIntoFiveHourSets [msgC3a, msgC3b]).flatMap (fun s => s.messages) = [msgC3a, msgC3b] ∧
    List.Chain' (fun x y => x.endTime < y.startTime) (groupIntoFiveHourSets [msgC3a, msgC3b]) ∧
    ∀ s ∈ groupIntoFiveHourSets [msgC3a, msgC3b],
      s.endTime = s.startTime + SESSION_DURATION_MS ∧
      s.messages ≠ [] ∧
      s.messages.head?.map (fun m => m.timestamp) = some s.startTime ∧
      ∀ m ∈ s.messages, s.startTime ≤ m.timestamp ∧ m.timestamp ≤ s.endTime :=
  C3_grouping_invariants [msgC3a, msgC3b] (by decide)

/-- C4: the claim says burn rate sums the quota-relevant (input + output)
tokens of the trailing ten minutes.  The code sums
`calculateTokensFromUsage`, which includes cache tokens: for one event
3 minutes before `now = 10000000` with 300 quota-relevant tokens plus 600
cache-creation tokens, the code reports 900 / 3 = 300 tokens/minute where
the claim requires 300 / 3 = 100. -/
theorem C4_burnRate_includes_cache_at_failing_input :
    calculateBurnRate [msgC4] 10000000 = 300 ∧
    msgC4.usage.map (fun u => u.input_tokens + u.output_tokens) = some 300 ∧
    (300 : ℚ) ≠ 100 := by
  refine ⟨?_, by decide, by norm_num⟩
  simp only [calculateBurnRate, BURN_RATE_WINDOW_MS, msgC4, calculateTokensFromUsage]
  norm_num

/-- C5: the facade returns `none` (never a zero-filled record) exactly
when no constructed window's closed `[startTime, endTime]` interval
contains `now`; in particular it returns `none` on an empty batch and on
any batch whose events are all timestamped before the local midnight
`startOfToday` (the calendar-day filter removes them all). -/
theorem C5_none_iff_no_active_window (messages : List ClaudeMessage)
    (sessionId : String) (now startOfToday : Int) :
    (calculateSessionMetrics messages sessionId now startOfToday = none ↔
      ∀ s ∈ sessionSetsOf messages startOfToday,
        ¬(s.startTime ≤ now ∧ now ≤ s.endTime)) ∧
    calculateSessionMetrics [] sessionId now startOfToday = none ∧
    ((∀ m ∈ messages, m.timestamp < startOfToday) →
      calculateSessionMetrics messages sessionId now startOfToday = none) := by
  have hshape := calculateSessionMetrics_shape messages sessionId now startOfToday
  refine ⟨?_, rfl, ?_⟩
  · rw [hshape, Option.map_eq_none', List.getLast?_eq_none_iff, List.filter_eq_nil_iff]
    constructor
    · intro h s hs hp
      exact (h s hs) (by simpa using hp)
    · intro h s hs
      simp only [decide_eq_true_eq]
      exact h s hs
  · intro hall
    have hsets : sessionSetsOf messages startOfToday = [] := by
      rw [sessionSetsOf]
      have hfil : (sortByTimestamp (dedupe messages)).filter
          (fun msg => decide (startOfToday ≤ msg.timestamp)) = [] := by
        rw [List.filter_eq_nil_iff]
        intro a ha
        simp only [decide_eq_true_eq]
        have hmem : a ∈ messages := by
          rw [sortByTimestamp] at ha
          exact dedupe_subset messages a (List.mem_mergeSort.mp ha)
        have := hall a hmem
        omega
      rw [hfil]
      rfl
    rw [hshape, hsets]
    rfl

/-- Witness for C5: a batch whose only event predates local midnight, and
the empty batch, both give the no-active-session result. -/
theorem C5_none_iff_no_active_window_witness :
    calculateSessionMetrics [msgC5] "s" 500 0 = none ∧
    calculateSessionMetrics [] "s" 500 0 = none := by
  have h := C5_none_iff_no_active_window [msgC5] "s" 500 0
  exact ⟨h.2.2 (by decide), h.2.1⟩

/-- C6: `dedupe` keeps one event per id — ids in first-occurrence order,
values last-seen-wins (the last input event with that id) — it is
idempotent, and running the facade on a batch in which every event
appears three times gives the same result as running it on the
deduplicated batch once. -/
theorem C6_dedupe_properties (messages : List ClaudeMessage) :
    (dedupe messages).map (fun m => m.id) =
      specFirstOccurIds (messages.map (fun m => m.id)) ∧
    (∀ key, (dedupe messages).find? (fun m => decide (m.id = key)) =
      (messages.filter (fun m => decide (m.id = key))).getLast?) ∧
    dedupe (dedupe messages) = dedupe messages ∧
    ∀ sessionId now startOfToday,
      calculateSessionMetrics (messages ++ messages ++ messages) sessionId now startOfToday =
        calculateSessionMetrics (dedupe messages) sessionId now startOfToday := by
  refine ⟨dedupe_ids_first_occur messages, ?_, dedupe_idem messages, ?_⟩
  · intro key
    exact dedupe_find?_eq_getLast messages key
  · intro sessionId now startOfToday
    exact calculateSessionMetrics_triple messages sessionId now startOfToday

/-- C7 counterexample: the claim says `isActive` is true exactly when
`now ∈ [startTime, endTime]` with both ends inclusive.  At
`now = endTime` the window is still selected (`now ≤ endTime` holds in
the selection filter) but the code sets
`isActive = (timeRemaining > 0) = false`, so the claim fails at the
right boundary. -/
theorem C7_isActive_boundary_counterexample :
    (calculateSessionMetrics [msgC7] "s" 18000000 0).map (fun m => m.isActive) = some false ∧
    (calculateSessionMetrics [msgC7] "s" 18000000 0).map (fun m => m.startTime) = some 0 ∧
    (calculateSessionMetrics [msgC7] "s" 18000000 0).map (fun m => m.sessionEndTime) =
      some 18000000 ∧
    ((0 : Int) ≤ 18000000 ∧ (18000000 : Int) ≤ 18000000) := by
  have h := calculateSessionMetrics_shape [msgC7] "s" 18000000 0
  rw [sessionSetsOf_singleton] at h
  rw [h]
  exact ⟨by decide, by decide, by decide, by decide⟩

/-- C7 amended: in every returned metrics record,
`timeRemaining = max 0 (sessionEndTime − now)`, and `isActive` is true
exactly when `now` lies in the half-open interval
`[startTime, sessionEndTime)` — the left end inclusive, the right end
exclusive, because `isActive` is computed as `timeRemaining > 0`. -/
theorem C7_timeRemaining_isActive (messages : List ClaudeMessage)
    (sessionId : String) (now startOfToday : Int) (m : SessionMetrics)
    (h : calculateSessionMetrics messages sessionId now startOfToday = some m) :
    m.timeRemaining = max 0 (m.sessionEndTime - now) ∧
    (m.isActive = true ↔ m.startTime ≤ now ∧ now < m.sessionEndTime) := by
  rw [calculateSessionMetrics_shape] at h
  rcases hL : ((sessionSetsOf messages startOfToday).filter
      (fun s => decide (s.startTime ≤ now ∧ now ≤ s.endTime))).getLast? with _ | a
  · rw [hL] at h
    simp at h
  · rw [hL] at h
    simp only [Option.map_some', Option.some.injEq] at h
    have ha : a ∈ (sessionSetsOf messages startOfToday).filter
        (fun s => decide (s.startTime ≤ now ∧ now ≤ s.endTime)) :=
      List.mem_of_mem_getLast? (by rw [hL]; rfl)
    obtain ⟨-, hp⟩ := List.mem_filter.mp ha
    obtain ⟨h1, h2⟩ := of_decide_eq_true hp
    subst h
    dsimp only
    refine ⟨rfl, ?_⟩
    rw [decide_eq_true_eq]
    constructor
    · intro hpos
      exact ⟨h1, by omega⟩
    · intro hlt
      omega

theorem calculateBurnRate_msgC7 : calculateBurnRate [msgC7] 1000 = 0 := by
  simp only [calculateBurnRate, BURN_RATE_WINDOW_MS, msgC7]
  norm_num

theorem calculateSessionMetrics_msgC7 :
    calculateSessionMetrics [msgC7] "s" 1000 0 = some metricsC7 := by
  rw [calculateSessionMetrics_shape, sessionSetsOf_singleton]
  have hsets : groupIntoFiveHourSets
      ([msgC7].filter (fun m => decide ((0 : Int) ≤ m.timestamp))) =
      [⟨0, 18000000, 0, [msgC7]⟩] := by decide
  rw [hsets]
  have hfil : ([(⟨0, 18000000, 0, [msgC7]⟩ : SessionSet)].filter
      (fun s => decide (s.startTime ≤ 1000 ∧ 1000 ≤ s.endTime))) =
      [⟨0, 18000000, 0, [msgC7]⟩] := by decide
  rw [hfil]
  have hlast : ([(⟨0, 18000000, 0, [msgC7]⟩ : SessionSet)]).getLast? =
      some ⟨0, 18000000, 0, [msgC7]⟩ := rfl
  rw [hlast, Option.map_some']
  refine congrArg some ?_
  dsimp only
  rw [calculateBurnRate_msgC7]
  decide

/-- Witness for C7 amended, at one event and `now` strictly inside the
window. -/
theorem C7_timeRemaining_isActive_witness :
    metricsC7.timeRemaining = max 0 (metricsC7.sessionEndTime - 1000) ∧
    (metricsC7.isActive = true ↔ metricsC7.startTime ≤ 1000 ∧ 1000 < metricsC7.sessionEndTime) :=
  C7_timeRemaining_isActive [msgC7] "s" 1000 0 metricsC7 calculateSessionMetrics_msgC7

/-- C8: `estimateTimeToLimit` is `undefined` (`none`) exactly when
`burnRate ≤ 0` or `currentTokens ≥ tokenLimit` (including exact equality),
and otherwise returns `(tokenLimit − currentTokens) / burnRate` minutes
converted to milliseconds. -/
theorem C8_estimateTimeToLimit_spec (currentTokens tokenLimit burnRate : ℚ) :
    (estimateTimeToLimit currentTokens tokenLimit burnRate = none ↔
      burnRate ≤ 0 ∨ tokenLimit ≤ currentTokens) ∧
    (0 < burnRate → currentTokens < tokenLimit →
      estimateTimeToLimit currentTokens tokenLimit burnRate =
        some ((tokenLimit - currentTokens) / burnRate * 60000)) := by
  constructor
  · rw [estimateTimeToLimit]
    by_cases h : burnRate ≤ 0 ∨ tokenLimit ≤ currentTokens
    · rw [if_pos h]
      simp [h]
    · rw [if_neg h]
      simp [h]
  · intro h1 h2
    rw [estimateTimeToLimit,
      if_neg (by push_neg; exact ⟨h1, h2⟩)]

/-- Witness for C8: burn rate 100, 300 tokens of headroom, expect 3
minutes = 180000 ms; and the at-limit case returns `none`. -/
theorem C8_estimateTimeToLimit_witness :
    estimateTimeToLimit 100 400 100 = some 180000 ∧
    estimateTimeToLimit 400 400 100 = none := by
  constructor
  · have h := (C8_estimateTimeToLimit_spec 100 400 100).2 (by norm_num) (by norm_num)
    rw [h]
    norm_num
  · exact (C8_estimateTimeToLimit_spec 400 400 100).1.mpr (Or.inr (by norm_num))

/-- C9: the windows produced by `groupIntoFiveHourSets` are pairwise
separated for every input batch (each later window starts strictly after
each earlier window ends), so for any `now` the facade's active-set filter
keeps at most one window and its pick-the-last tie-break never has two or
more candidates to choose among. -/
theorem C9_at_most_one_active (messages : List ClaudeMessage) (now : Int) :
    List.Pairwise (fun x y => x.endTime < y.startTime) (groupIntoFiveHourSets messages) ∧
    ((groupIntoFiveHourSets messages).filter
      (fun s => decide (s.startTime ≤ now ∧ now ≤ s.endTime))).length ≤ 1 :=
  ⟨groupIntoFiveHourSets_pairwise messages,
    filter_active_length_le_one _ now (groupIntoFiveHourSets_pairwise messages)⟩

/-- C10: a parsed record whose nested message has no id and whose raw
record has no batch-level uuid gets the empty-string id
(`msg.id || parsed.uuid || ""`); deduplication then keeps at most one
event per id — in particular at most one empty-id event — and the kept
one is the last such event in input order, so every other no-id event is
dropped before any metric is computed. -/
theorem C10_no_id_events_collapse (messages : List ClaudeMessage) :
    assignMessageId none none = "" ∧
    (dedupe messages).countP (fun m => decide (m.id = "")) ≤ 1 ∧
    (dedupe messages).find? (fun m => decide (m.id = "")) =
      (messages.filter (fun m => decide (m.id = ""))).getLast? :=
  ⟨rfl,
    countP_le_one_of_nodup_map (fun m => m.id) (dedupe messages)
      (dedupe_ids_nodup messages) "",
    dedupe_find?_eq_getLast messages ""⟩
